import Mathlib

/-!
Verification of the crema confidence-estimation engine.

This file gives a shallow embedding, in Lean 4, of the core of the crema
repository (https://github.com/sjust-seerbio/crema): target-decoy
competition (`crema/confidence.py`), the classic-TDC q-value calculation
(spec §4.2; `crema/qvalues.py` is not part of the provided sources, so the
calculator is modelled from the specification), the target/decoy peptide
pairing construction (`crema/parsers/crux.py::_create_pairing`), and the
dataset construction checks (`crema/dataset.py::PsmDataset.__init__`).

Tables (`pandas.DataFrame`s) are embedded as Lean lists of records; floats
are embedded as rationals; `raise ValueError(...)` is embedded as
`Except.error`.  Pandas' `sample(frac=1)` shuffle is covered by quantifying
theorems over every input row order, and `sort_values` (an unstable sort)
is embedded as insertion sort, one sorted permutation of the input.
-/

namespace Crema

/-- A Boolean check that an `Except` computation did not raise. -/
def exceptIsOk {ε α : Type} : Except ε α → Bool
  | .ok _ => true
  | .error _ => false

/-! ### Codepoint-wise string order

Python compares strings by codepoint, lexicographically.  We embed that
order with executable Boolean comparators over `String.toList` (Lean's
built-in `String` order is equivalent but is not kernel-reducible, which
would block concrete witnesses). -/

/-- Lexicographic strict order on lists of characters, by codepoint. -/
def charListLt : List Char → List Char → Bool
  | [], [] => false
  | [], _ :: _ => true
  | _ :: _, [] => false
  | a :: as, b :: bs =>
    if a.toNat < b.toNat then true
    else if b.toNat < a.toNat then false
    else charListLt as bs

/-- Lexicographic weak order on lists of characters, by codepoint. -/
def charListLe : List Char → List Char → Bool
  | [], _ => true
  | _ :: _, [] => false
  | a :: as, b :: bs =>
    if a.toNat < b.toNat then true
    else if b.toNat < a.toNat then false
    else charListLe as bs

/-- Python's `<` on strings (codepoint lexicographic). -/
def strLt (a b : String) : Bool := charListLt a.toList b.toList

/-- Python's `<=` on strings (codepoint lexicographic). -/
def strLe (a b : String) : Bool := charListLe a.toList b.toList

theorem charListLe_cons_iff {a b : Char} {as bs : List Char} :
    charListLe (a :: as) (b :: bs) = true ↔
      (a.toNat < b.toNat ∨ (a.toNat = b.toNat ∧ charListLe as bs = true)) := by
  simp only [charListLe]
  rcases Nat.lt_trichotomy a.toNat b.toNat with h | h | h
  · simp [h]
  · have h1 : ¬ a.toNat < b.toNat := by omega
    have h2 : ¬ b.toNat < a.toNat := by omega
    simp [h1, h2, h]
  · have h1 : ¬ a.toNat < b.toNat := by omega
    have h2 : a.toNat ≠ b.toNat := by omega
    simp [h1, h, h2]

theorem charListLt_cons_iff {a b : Char} {as bs : List Char} :
    charListLt (a :: as) (b :: bs) = true ↔
      (a.toNat < b.toNat ∨ (a.toNat = b.toNat ∧ charListLt as bs = true)) := by
  simp only [charListLt]
  rcases Nat.lt_trichotomy a.toNat b.toNat with h | h | h
  · simp [h]
  · have h1 : ¬ a.toNat < b.toNat := by omega
    have h2 : ¬ b.toNat < a.toNat := by omega
    simp [h1, h2, h]
  · have h1 : ¬ a.toNat < b.toNat := by omega
    have h2 : a.toNat ≠ b.toNat := by omega
    simp [h1, h, h2]

theorem charListLe_total : ∀ a b : List Char, charListLe a b = true ∨ charListLe b a = true
  | [], _ => Or.inl rfl
  | _ :: _, [] => Or.inr rfl
  | a :: as, b :: bs => by
    rw [charListLe_cons_iff, charListLe_cons_iff]
    rcases Nat.lt_trichotomy a.toNat b.toNat with h | h | h
    · exact Or.inl (Or.inl h)
    · rcases charListLe_total as bs with ih | ih
      · exact Or.inl (Or.inr ⟨h, ih⟩)
      · exact Or.inr (Or.inr ⟨h.symm, ih⟩)
    · exact Or.inr (Or.inl h)

theorem charListLe_trans : ∀ {a b c : List Char},
    charListLe a b = true → charListLe b c = true → charListLe a c = true
  | [], _, _, _, _ => rfl
  | _ :: _, [], _, h, _ => by simp [charListLe] at h
  | _ :: _, _ :: _, [], _, h => by simp [charListLe] at h
  | a :: as, b :: bs, c :: cs, hab, hbc => by
    rw [charListLe_cons_iff] at hab hbc ⊢
    rcases hab with h1 | ⟨h1, h1r⟩ <;> rcases hbc with h2 | ⟨h2, h2r⟩
    · exact Or.inl (by omega)
    · exact Or.inl (by omega)
    · exact Or.inl (by omega)
    · exact Or.inr ⟨by omega, charListLe_trans h1r h2r⟩

theorem charListLt_trans : ∀ {a b c : List Char},
    charListLt a b = true → charListLt b c = true → charListLt a c = true
  | [], [], _, h, _ => by simp [charListLt] at h
  | [], _ :: _, [], _, h => by simp [charListLt] at h
  | [], _ :: _, _ :: _, _, _ => rfl
  | _ :: _, [], _, h, _ => by simp [charListLt] at h
  | _ :: _, _ :: _, [], _, h => by simp [charListLt] at h
  | a :: as, b :: bs, c :: cs, hab, hbc => by
    rw [charListLt_cons_iff] at hab hbc ⊢
    rcases hab with h1 | ⟨h1, h1r⟩ <;> rcases hbc with h2 | ⟨h2, h2r⟩
    · exact Or.inl (by omega)
    · exact Or.inl (by omega)
    · exact Or.inl (by omega)
    · exact Or.inr ⟨by omega, charListLt_trans h1r h2r⟩

theorem charListLt_irrefl : ∀ a : List Char, charListLt a a = false
  | [] => rfl
  | a :: as => by
    have ih := charListLt_irrefl as
    by_contra h
    rw [Bool.not_eq_false, charListLt_cons_iff] at h
    rcases h with h | ⟨_, h⟩
    · omega
    · rw [ih] at h; cases h

theorem eq_of_charListLt_false : ∀ {a b : List Char},
    charListLt a b = false → charListLt b a = false → a = b
  | [], [], _, _ => rfl
  | [], _ :: _, h, _ => by simp [charListLt] at h
  | _ :: _, [], _, h => by simp [charListLt] at h
  | a :: as, b :: bs, hab, hba => by
    have hab' : ¬ (a.toNat < b.toNat ∨ (a.toNat = b.toNat ∧ charListLt as bs = true)) := by
      rw [← charListLt_cons_iff, hab]; simp
    have hba' : ¬ (b.toNat < a.toNat ∨ (b.toNat = a.toNat ∧ charListLt bs as = true)) := by
      rw [← charListLt_cons_iff, hba]; simp
    push_neg at hab' hba'
    have hn : a.toNat = b.toNat := by omega
    have hc : a = b := Char.eq_of_val_eq (UInt32.ext hn)
    have h1 : charListLt as bs = false :=
      Bool.eq_false_iff.mpr (fun h => (hab'.2 hn h).elim)
    have h2 : charListLt bs as = false :=
      Bool.eq_false_iff.mpr (fun h => (hba'.2 hn.symm h).elim)
    rw [hc, eq_of_charListLt_false h1 h2]

theorem strLt_trans {a b c : String} (h1 : strLt a b = true) (h2 : strLt b c = true) :
    strLt a c = true := charListLt_trans h1 h2

theorem strLt_irrefl (a : String) : strLt a a = false := charListLt_irrefl _

theorem eq_of_strLt_false {a b : String} (h1 : strLt a b = false) (h2 : strLt b a = false) :
    a = b := String.toList_inj.mp (eq_of_charListLt_false h1 h2)

theorem strLe_total (a b : String) : strLe a b = true ∨ strLe b a = true :=
  charListLe_total _ _

theorem strLe_trans {a b c : String} (h1 : strLe a b = true) (h2 : strLe b c = true) :
    strLe a c = true := charListLe_trans h1 h2

/-! ### Deduplication keeping the first (or last) occurrence

Embeds `pandas.DataFrame.drop_duplicates(cols, keep="first" | "last")`:
`drop_duplicates(keep="first")` keeps, in order, the first row of each
distinct key; `keep="last"` keeps the last row of each distinct key. -/

/-- Worker for `dedupKeepFirst`: `seen` accumulates the keys already kept. -/
def dedupFirstAux {α K : Type} [DecidableEq K] (key : α → K) : List K → List α → List α
  | _, [] => []
  | seen, a :: t =>
    if key a ∈ seen then dedupFirstAux key seen t
    else a :: dedupFirstAux key (key a :: seen) t

/-- Embedding of `drop_duplicates(keep="first")` for the key map `key`. -/
def dedupKeepFirst {α K : Type} [DecidableEq K] (key : α → K) (l : List α) : List α :=
  dedupFirstAux key [] l

/-- Embedding of `drop_duplicates(keep="last")`: keep the last occurrence of
each key, preserving the order of the kept rows. -/
def dedupKeepLast {α K : Type} [DecidableEq K] (key : α → K) (l : List α) : List α :=
  (dedupFirstAux key [] l.reverse).reverse

theorem mem_of_mem_dedupFirstAux {α K : Type} [DecidableEq K] {key : α → K} :
    ∀ {seen : List K} {l : List α} {x : α}, x ∈ dedupFirstAux key seen l → x ∈ l := by
  intro seen l
  induction l generalizing seen with
  | nil => intro x h; simp [dedupFirstAux] at h
  | cons a t ih =>
    intro x h
    simp only [dedupFirstAux] at h
    split at h
    · exact List.mem_cons_of_mem _ (ih h)
    · rcases List.mem_cons.mp h with rfl | h
      · exact List.mem_cons_self _ _
      · exact List.mem_cons_of_mem _ (ih h)

theorem key_mem_dedupFirstAux {α K : Type} [DecidableEq K] {key : α → K} :
    ∀ {seen : List K} {l : List α} {k : K},
      k ∈ (dedupFirstAux key seen l).map key ↔ k ∈ l.map key ∧ k ∉ seen := by
  intro seen l
  induction l generalizing seen with
  | nil => intro k; simp [dedupFirstAux]
  | cons a t ih =>
    intro k
    simp only [dedupFirstAux]
    split
    · rename_i hmem
      rw [ih]
      simp only [List.map_cons, List.mem_cons]
      constructor
      · rintro ⟨h1, h2⟩; exact ⟨Or.inr h1, h2⟩
      · rintro ⟨h1 | h1, h2⟩
        · exact absurd (h1 ▸ hmem) h2
        · exact ⟨h1, h2⟩
    · rename_i hmem
      simp only [List.map_cons, List.mem_cons, ih]
      constructor
      · rintro (rfl | ⟨h1, h2⟩)
        · exact ⟨Or.inl rfl, hmem⟩
        · exact ⟨Or.inr h1, fun hk => h2 (Or.inr hk)⟩
      · rintro ⟨h1 | h1, h2⟩
        · exact Or.inl h1
        · by_cases hk : k = key a
          · exact Or.inl hk
          · refine Or.inr ⟨h1, ?_⟩
            rintro (h | h)
            · exact hk h
            · exact h2 h

theorem nodup_keys_dedupFirstAux {α K : Type} [DecidableEq K] {key : α → K} :
    ∀ {seen : List K} {l : List α}, ((dedupFirstAux key seen l).map key).Nodup := by
  intro seen l
  induction l generalizing seen with
  | nil => simp [dedupFirstAux]
  | cons a t ih =>
    simp only [dedupFirstAux]
    split
    · exact ih
    · simp only [List.map_cons, List.nodup_cons]
      refine ⟨fun h => ?_, ih⟩
      exact ((key_mem_dedupFirstAux.mp h).2) (List.mem_cons_self _ _)

theorem dedupFirstAux_dominance {α K : Type} [DecidableEq K] {key : α → K}
    {R : α → α → Prop} :
    ∀ {seen : List K} {l : List α} {r r' : α}, l.Pairwise R →
      r ∈ dedupFirstAux key seen l → r' ∈ l → key r' = key r → r' = r ∨ R r r' := by
  intro seen l
  induction l generalizing seen with
  | nil => intro r r' _ h; simp [dedupFirstAux] at h
  | cons a t ih =>
    intro r r' hp hr hr' hk
    have hpt : t.Pairwise R := hp.of_cons
    simp only [dedupFirstAux] at hr
    split at hr
    · rename_i hmem
      rcases List.mem_cons.mp hr' with rfl | hr'
      · -- r' is the head; its key was already seen, but r's key is unseen
        have := (key_mem_dedupFirstAux.mp (List.mem_map_of_mem key hr)).2
        exact absurd (hk ▸ hmem) this
      · exact ih hpt hr hr' hk
    · rcases List.mem_cons.mp hr with rfl | hr
      · rcases List.mem_cons.mp hr' with rfl | hr'
        · exact Or.inl rfl
        · exact Or.inr ((List.pairwise_cons.mp hp).1 _ hr')
      · have hkr : key r ∉ key a :: seen := (key_mem_dedupFirstAux.mp (List.mem_map_of_mem key hr)).2
        rcases List.mem_cons.mp hr' with rfl | hr'
        · exact absurd (hk ▸ List.mem_cons_self _ _) hkr
        · exact ih hpt hr hr' hk

theorem mem_of_mem_dedupKeepFirst {α K : Type} [DecidableEq K] {key : α → K}
    {l : List α} {x : α} (h : x ∈ dedupKeepFirst key l) : x ∈ l :=
  mem_of_mem_dedupFirstAux h

theorem mem_of_mem_dedupKeepLast {α K : Type} [DecidableEq K] {key : α → K}
    {l : List α} {x : α} (h : x ∈ dedupKeepLast key l) : x ∈ l := by
  have := mem_of_mem_dedupFirstAux (List.mem_reverse.mp h)
  exact List.mem_reverse.mp this

theorem key_mem_dedupKeepFirst {α K : Type} [DecidableEq K] {key : α → K}
    {l : List α} {k : K} : k ∈ (dedupKeepFirst key l).map key ↔ k ∈ l.map key := by
  rw [dedupKeepFirst, key_mem_dedupFirstAux]
  simp

theorem key_mem_dedupKeepLast {α K : Type} [DecidableEq K] {key : α → K}
    {l : List α} {k : K} : k ∈ (dedupKeepLast key l).map key ↔ k ∈ l.map key := by
  rw [dedupKeepLast, List.map_reverse, List.mem_reverse, key_mem_dedupFirstAux]
  simp

theorem nodup_keys_dedupKeepFirst {α K : Type} [DecidableEq K] {key : α → K}
    {l : List α} : ((dedupKeepFirst key l).map key).Nodup :=
  nodup_keys_dedupFirstAux

theorem nodup_keys_dedupKeepLast {α K : Type} [DecidableEq K] {key : α → K}
    {l : List α} : ((dedupKeepLast key l).map key).Nodup := by
  rw [dedupKeepLast, List.map_reverse, List.nodup_reverse]
  exact nodup_keys_dedupFirstAux

theorem dedupKeepFirst_dominance {α K : Type} [DecidableEq K] {key : α → K}
    {R : α → α → Prop} {l : List α} {r r' : α} (hp : l.Pairwise R)
    (hr : r ∈ dedupKeepFirst key l) (hr' : r' ∈ l) (hk : key r' = key r) :
    r' = r ∨ R r r' :=
  dedupFirstAux_dominance hp hr hr' hk

theorem dedupKeepLast_dominance {α K : Type} [DecidableEq K] {key : α → K}
    {R : α → α → Prop} {l : List α} {r r' : α} (hp : l.Pairwise R)
    (hr : r ∈ dedupKeepLast key l) (hr' : r' ∈ l) (hk : key r' = key r) :
    r' = r ∨ R r' r := by
  have hp' : l.reverse.Pairwise (fun a b => R b a) := List.pairwise_reverse.mpr hp
  have hr2 : r ∈ dedupFirstAux key [] l.reverse := List.mem_reverse.mp hr
  have hr'2 : r' ∈ l.reverse := List.mem_reverse.mpr hr'
  exact dedupFirstAux_dominance hp' hr2 hr'2 hk

/-! ### Classic TDC q-values (`crema.qvalues.tdc`)

`crema/qvalues.py` is not among the provided sources (only its callers
are), so the classic-TDC q-value calculator is modelled from the
specification. -/

/-- Modelled from the spec: `a` is at least as good a score as `b` under
direction `desc` (§4.1/§4.2: "higher scores better" when `desc` is true,
lower when false). -/
def atLeastAsGood (desc : Bool) (a b : ℚ) : Bool :=
  if desc then decide (b ≤ a) else decide (a ≤ b)

/-- Modelled from the spec (`crema/qvalues.py::tdc` is absent from the
sources): the instantaneous FDR at score threshold `s` for labeled entries
`(score, is_target)`, per §4.2 steps 2–3: with `D` decoys and `T` targets
at or better than `s`, the FDR is `(D + 1) / max(T, 1)`. -/
def fdrAt (desc : Bool) (entries : List (ℚ × Bool)) (s : ℚ) : ℚ :=
  let atb := entries.filter (fun e => atLeastAsGood desc e.1 s)
  (((atb.filter (fun e => !e.2)).length : ℚ) + 1) /
    max ((atb.filter (fun e => e.2)).length : ℚ) 1

/-- Modelled from the spec: the q-value of an entry is the minimum FDR
threshold at which that entry would be accepted (glossary; §4.2 step 4's
running minimum), i.e. the minimum of the instantaneous FDR over all
observed score thresholds at or worse than the entry's score, the
entry's own threshold included. -/
def qvalueAt (desc : Bool) (entries : List (ℚ × Bool)) (s : ℚ) : ℚ :=
  entries.foldr
    (fun e acc => if atLeastAsGood desc s e.1 then min (fdrAt desc entries e.1) acc else acc)
    (fdrAt desc entries s)

/-- Modelled from the spec: `crema.qvalues.tdc(scores, target, desc)`
returns one q-value per input entry (§4.2; decoy entries receive q-values
too, per step 6). -/
def tdc (scores : List ℚ) (target : List Bool) (desc : Bool) : List ℚ :=
  (scores.zip target).map (fun e => qvalueAt desc (scores.zip target) e.1)

theorem atLeastAsGood_trans {desc : Bool} {a b c : ℚ}
    (h1 : atLeastAsGood desc a b = true) (h2 : atLeastAsGood desc b c = true) :
    atLeastAsGood desc a c = true := by
  cases desc
  · simp [atLeastAsGood] at h1 h2 ⊢
    exact le_trans h1 h2
  · simp [atLeastAsGood] at h1 h2 ⊢
    exact le_trans h2 h1

theorem condMin_le_of_mem {α : Type} {p : α → Bool} {g : α → ℚ} {init : ℚ} :
    ∀ {l : List α} {e : α}, e ∈ l → p e = true →
      (l.foldr (fun x acc => if p x then min (g x) acc else acc) init) ≤ g e := by
  intro l
  induction l with
  | nil => intro e h; simp at h
  | cons x t ih =>
    intro e he hp
    rcases List.mem_cons.mp he with rfl | he
    · simp only [List.foldr_cons, hp, if_true]
      exact min_le_left _ _
    · simp only [List.foldr_cons]
      split
      · exact le_trans (min_le_right _ _) (ih he hp)
      · exact ih he hp

theorem condMin_le_init {α : Type} {p : α → Bool} {g : α → ℚ} {init : ℚ} :
    ∀ {l : List α}, (l.foldr (fun x acc => if p x then min (g x) acc else acc) init) ≤ init := by
  intro l
  induction l with
  | nil => simp
  | cons x t ih =>
    simp only [List.foldr_cons]
    split
    · exact le_trans (min_le_right _ _) ih
    · exact ih

theorem le_condMin {α : Type} {p : α → Bool} {g : α → ℚ} {init x : ℚ} :
    ∀ {l : List α}, x ≤ init → (∀ e ∈ l, p e = true → x ≤ g e) →
      x ≤ l.foldr (fun e acc => if p e then min (g e) acc else acc) init := by
  intro l
  induction l with
  | nil => intro h _; simpa using h
  | cons a t ih =>
    intro h0 hl
    simp only [List.foldr_cons]
    split
    · rename_i hp
      exact le_min (hl a (List.mem_cons_self _ _) hp)
        (ih h0 (fun e he hpe => hl e (List.mem_cons_of_mem _ he) hpe))
    · exact ih h0 (fun e he hpe => hl e (List.mem_cons_of_mem _ he) hpe)

theorem qvalueAt_mono {desc : Bool} {entries : List (ℚ × Bool)} {s1 : ℚ} {e2 : ℚ × Bool}
    (he2 : e2 ∈ entries) (h : atLeastAsGood desc s1 e2.1 = true) :
    qvalueAt desc entries s1 ≤ qvalueAt desc entries e2.1 := by
  unfold qvalueAt
  refine le_condMin (condMin_le_of_mem he2 h) ?_
  intro e he hpe
  exact condMin_le_of_mem he (atLeastAsGood_trans h hpe)

/-- C1. For every score sequence with target/decoy labels and a direction
flag, the q-values produced by the classic-TDC q-value calculator are
non-decreasing from best to worst: whenever entry `i` scores at least as
well as entry `j`, the q-value of entry `i` is at most that of entry `j`. -/
theorem tdc_qvalues_monotone (scores : List ℚ) (target : List Bool) (desc : Bool)
    (i j : ℕ) (hi : i < (tdc scores target desc).length)
    (hj : j < (tdc scores target desc).length)
    (hzi : i < (scores.zip target).length) (hzj : j < (scores.zip target).length)
    (h : atLeastAsGood desc ((scores.zip target).get ⟨i, hzi⟩).1
        ((scores.zip target).get ⟨j, hzj⟩).1 = true) :
    (tdc scores target desc).get ⟨i, hi⟩ ≤ (tdc scores target desc).get ⟨j, hj⟩ := by
  have hget : ∀ (n : ℕ) (hn : n < (tdc scores target desc).length)
      (hzn : n < (scores.zip target).length),
      (tdc scores target desc).get ⟨n, hn⟩ =
        qvalueAt desc (scores.zip target) ((scores.zip target).get ⟨n, hzn⟩).1 := by
    intro n hn hzn
    simp [tdc]
  rw [hget i hi hzi, hget j hj hzj]
  exact qvalueAt_mono (List.get_mem _ _ _) h

/-- Witness for C1 on the spec's worked example (§8): targets scoring
`[10, 9, 8, 7]`, decoys scoring `[1, 2, 3, 4]`, higher-better. -/
theorem tdc_qvalues_monotone_witness :
    (tdc [10, 9, 8, 7, 1, 2, 3, 4] [true, true, true, true, false, false, false, false]
        true).get ⟨0, by decide⟩ ≤
      (tdc [10, 9, 8, 7, 1, 2, 3, 4] [true, true, true, true, false, false, false, false]
        true).get ⟨3, by decide⟩ :=
  tdc_qvalues_monotone _ _ true 0 3 (by decide) (by decide) (by decide) (by decide) (by decide)

/-! ### The competition engine (`Confidence._compete`)

`confidence.py` lines 210–242: shuffle the rows, sort ascending by
`[score_column] + group_columns`, and keep one row per group —
the last (best) under `desc=True`, the first under `desc=False`.
The shuffle is covered by quantifying over every input row order;
`sort_values` is embedded as `List.insertionSort`, which produces a
sorted permutation of its input.  A group key (one or more columns)
is embedded as a single `String`-valued key map. -/

/-- The sort order used by `_compete`: ascending by score, then by the
group key (the pandas multi-column sort on `[score] + group_columns`). -/
def competeLe {α : Type} (score : α → ℚ) (key : α → String) (a b : α) : Prop :=
  score a < score b ∨ (score a = score b ∧ strLe (key a) (key b) = true)

instance {α : Type} (score : α → ℚ) (key : α → String) :
    DecidableRel (competeLe score key) := fun a b => by
  unfold competeLe
  infer_instance

theorem competeLe_total {α : Type} (score : α → ℚ) (key : α → String) :
    ∀ a b : α, competeLe score key a b ∨ competeLe score key b a := by
  intro a b
  rcases lt_trichotomy (score a) (score b) with h | h | h
  · exact Or.inl (Or.inl h)
  · rcases strLe_total (key a) (key b) with hs | hs
    · exact Or.inl (Or.inr ⟨h, hs⟩)
    · exact Or.inr (Or.inr ⟨h.symm, hs⟩)
  · exact Or.inr (Or.inl h)

theorem competeLe_trans {α : Type} (score : α → ℚ) (key : α → String) :
    ∀ {a b c : α}, competeLe score key a b → competeLe score key b c →
      competeLe score key a c := by
  rintro a b c (h1 | ⟨h1, h1s⟩) (h2 | ⟨h2, h2s⟩)
  · exact Or.inl (lt_trans h1 h2)
  · exact Or.inl (h2 ▸ h1)
  · exact Or.inl (h1 ▸ h2)
  · exact Or.inr ⟨h1.trans h2, strLe_trans h1s h2s⟩

/-- Embedding of `Confidence._compete` (`confidence.py` lines 210–242):
sort by `[score] + group_columns` ascending, then `drop_duplicates`
keeping the last row per group if higher scores are better (`desc`),
else the first. -/
def compete {α : Type} (desc : Bool) (score : α → ℚ) (key : α → String)
    (df : List α) : List α :=
  let sorted := List.insertionSort (competeLe score key) df
  if desc then dedupKeepLast key sorted else dedupKeepFirst key sorted

theorem score_le_of_competeLe {α : Type} {score : α → ℚ} {key : α → String} {a b : α}
    (h : competeLe score key a b) : score a ≤ score b := by
  rcases h with h | ⟨h, _⟩
  · exact le_of_lt h
  · exact le_of_eq h

/-- C2. For every table, direction, score map and group-key map, the
competition `_compete` keeps exactly one row per distinct group-key value
present in the input (no group dropped, no group duplicated), every kept
row is an input row, and each kept row's score is the extremum of its
group: the maximum when higher scores are better, the minimum otherwise. -/
theorem compete_one_best_row_per_group {α : Type} (desc : Bool) (score : α → ℚ)
    (key : α → String) (df : List α) :
    ((compete desc score key df).map key).Nodup ∧
    (∀ k, k ∈ (compete desc score key df).map key ↔ k ∈ df.map key) ∧
    (∀ r ∈ compete desc score key df, r ∈ df ∧
      ∀ r' ∈ df, key r' = key r →
        (desc = true → score r' ≤ score r) ∧ (desc = false → score r ≤ score r')) := by
  have hperm : (List.insertionSort (competeLe score key) df).Perm df :=
    List.perm_insertionSort _ df
  haveI : IsTotal α (competeLe score key) := ⟨competeLe_total score key⟩
  haveI : IsTrans α (competeLe score key) := ⟨fun _ _ _ => competeLe_trans score key⟩
  have hsorted : (List.insertionSort (competeLe score key) df).Pairwise (competeLe score key) :=
    List.sorted_insertionSort _ df
  have hkeyperm : ∀ k, k ∈ (List.insertionSort (competeLe score key) df).map key ↔
      k ∈ df.map key := by
    intro k
    exact (hperm.map key).mem_iff
  cases desc
  · refine ⟨nodup_keys_dedupKeepFirst, ?_, ?_⟩
    · intro k
      rw [show compete false score key df = dedupKeepFirst key
          (List.insertionSort (competeLe score key) df) from rfl]
      rw [key_mem_dedupKeepFirst]
      exact hkeyperm k
    · intro r hr
      have hrs : r ∈ List.insertionSort (competeLe score key) df :=
        mem_of_mem_dedupKeepFirst hr
      refine ⟨hperm.subset hrs, ?_⟩
      intro r' hr' hk
      have hr's : r' ∈ List.insertionSort (competeLe score key) df := hperm.symm.subset hr'
      have := dedupKeepFirst_dominance hsorted hr hr's hk
      rcases this with rfl | hle
      · exact ⟨fun _ => le_refl _, fun _ => le_refl _⟩
      · exact ⟨fun h => Bool.noConfusion h, fun _ => score_le_of_competeLe hle⟩
  · refine ⟨nodup_keys_dedupKeepLast, ?_, ?_⟩
    · intro k
      rw [show compete true score key df = dedupKeepLast key
          (List.insertionSort (competeLe score key) df) from rfl]
      rw [key_mem_dedupKeepLast]
      exact hkeyperm k
    · intro r hr
      have hrs : r ∈ List.insertionSort (competeLe score key) df :=
        mem_of_mem_dedupKeepLast hr
      refine ⟨hperm.subset hrs, ?_⟩
      intro r' hr' hk
      have hr's : r' ∈ List.insertionSort (competeLe score key) df := hperm.symm.subset hr'
      have := dedupKeepLast_dominance hsorted hr hr's hk
      rcases this with rfl | hle
      · exact ⟨fun _ => le_refl _, fun _ => le_refl _⟩
      · exact ⟨fun _ => score_le_of_competeLe hle, fun h => Bool.noConfusion h⟩

/-- Witness for C2: two rows in one group, higher-better; the winner `2`
is kept and dominates the loser `1`. -/
theorem compete_one_best_row_per_group_witness :
    ((2 : ℚ) ∈ compete true id (fun _ => "g") [(2 : ℚ), (1 : ℚ)]) ∧
      ((1 : ℚ) ≤ (2 : ℚ)) := by
  have h0 := compete_one_best_row_per_group true id (fun _ => "g") [(2 : ℚ), (1 : ℚ)]
  have hm : (2 : ℚ) ∈ compete true id (fun _ => "g") [(2 : ℚ), (1 : ℚ)] := by decide
  refine ⟨hm, ?_⟩
  have h1 := (h0.2.2 (2 : ℚ) hm).2 (1 : ℚ) (by decide) rfl
  exact h1.1 rfl

/-! ### The PSM table and the protein-level aggregation

`TdcConfidence._assign_confidence` (`confidence.py` lines 362–439) works
on the dataset's table, whose columns are the spectrum-identity columns
(embedded as one `String` field), the peptide, protein and target columns
and the score column.  The fresh `pairing` column created with
`utils.new_column("pairing", df)` is embedded as the `pairing` field,
`""` standing for "column not present".  The protein-level intermediate
table `df2` (only protein, target and score columns) is embedded as a
`Row` whose other fields are `""`. -/

structure Row where
  spectrum : String
  peptide : String
  protein : String
  target : Bool
  score : ℚ
  pairing : String
deriving DecidableEq, Repr

/-- The `(protein id, target/decoy)` group key used by the protein-level
`groupby` (`confidence.py` line 415). -/
def proteinTD (r : Row) : String × Bool := (r.protein, r.target)

/-- Embedding of `Series.str.contains(",")`: the character occurs in the
string.  (Defined over `String.toList`; Lean's built-in `String.contains`
has the same meaning but is not kernel-reducible.) -/
def containsChar (s : String) (c : Char) : Bool := s.toList.contains c

/-- Embedding of `confidence.py` lines 398–404: compete at PSM granularity
(by the spectrum columns), then drop every surviving row whose protein-id
field contains the multi-protein delimiter `","`. -/
def proteinPrep (desc : Bool) (df : List Row) : List Row :=
  (compete desc Row.score Row.spectrum df).filter (fun r => !(containsChar r.protein ','))

/-- Embedding of `df.groupby([protein, target]).agg({score: ["sum"]})`
(`confidence.py` line 415): the total score of the group of `(p, t)`. -/
def sumScores (l : List Row) (p : String) (t : Bool) : ℚ :=
  ((l.filter (fun r => decide (r.protein = p ∧ r.target = t))).map Row.score).sum

/-- Pandas `groupby(sort=True)` orders the aggregated rows by their group
key; `(protein, target)` keys are ordered lexicographically with
`False < True`. -/
def aggLe (a b : Row) : Prop :=
  strLt a.protein b.protein = true ∨ (a.protein = b.protein ∧ a.target ≤ b.target)

instance : DecidableRel aggLe := fun a b => by
  unfold aggLe
  infer_instance

theorem aggLe_total : ∀ a b : Row, aggLe a b ∨ aggLe b a := by
  intro a b
  by_cases h1 : strLt a.protein b.protein = true
  · exact Or.inl (Or.inl h1)
  · by_cases h2 : strLt b.protein a.protein = true
    · exact Or.inr (Or.inl h2)
    · have he : a.protein = b.protein :=
        eq_of_strLt_false (Bool.eq_false_iff.mpr h1) (Bool.eq_false_iff.mpr h2)
      rcases le_total a.target b.target with h | h
      · exact Or.inl (Or.inr ⟨he, h⟩)
      · exact Or.inr (Or.inr ⟨he.symm, h⟩)

theorem aggLe_trans : ∀ {a b c : Row}, aggLe a b → aggLe b c → aggLe a c := by
  rintro a b c (h1 | ⟨h1, h1t⟩) (h2 | ⟨h2, h2t⟩)
  · exact Or.inl (strLt_trans h1 h2)
  · exact Or.inl (h2 ▸ h1)
  · exact Or.inl (h1 ▸ h2)
  · exact Or.inr ⟨h1.trans h2, le_trans h1t h2t⟩

/-- Embedding of `confidence.py` lines 413–418: aggregate the surviving
single-protein rows by `(protein id, target flag)`, summing the score
column; the result keeps only the protein, target and score columns. -/
def proteinAggregate (desc : Bool) (df : List Row) : List Row :=
  let d2 := proteinPrep desc df
  let reps := List.insertionSort aggLe (dedupKeepFirst proteinTD d2)
  reps.map (fun r =>
    { spectrum := "", peptide := "", protein := r.protein, target := r.target,
      score := sumScores d2 r.protein r.target, pairing := "" })

/-- C3. At the protein level the orchestrator first competes at PSM
granularity and drops every surviving row whose protein-id field denotes
multiple proteins; the remaining rows are aggregated by
`(protein id, target flag)` with their scores summed: each aggregated row
carries the sum of the scores of its group, there is exactly one
aggregated row per `(protein, target)` pair present after the drop, and
no dropped pair reappears. -/
theorem protein_level_aggregation (desc : Bool) (df : List Row) :
    (∀ r ∈ proteinPrep desc df, containsChar r.protein ',' = false) ∧
    (∀ pr ∈ proteinAggregate desc df,
      pr.score = sumScores (proteinPrep desc df) pr.protein pr.target ∧
      (pr.protein, pr.target) ∈ (proteinPrep desc df).map proteinTD) ∧
    ((proteinAggregate desc df).map proteinTD).Nodup ∧
    (∀ k, k ∈ (proteinAggregate desc df).map proteinTD ↔
      k ∈ (proteinPrep desc df).map proteinTD) := by
  haveI : IsTotal Row aggLe := ⟨aggLe_total⟩
  haveI : IsTrans Row aggLe := ⟨fun _ _ _ => aggLe_trans⟩
  have hperm : (List.insertionSort aggLe (dedupKeepFirst proteinTD (proteinPrep desc df))).Perm
      (dedupKeepFirst proteinTD (proteinPrep desc df)) :=
    List.perm_insertionSort _ _
  have hmapeq : (proteinAggregate desc df).map proteinTD =
      (List.insertionSort aggLe (dedupKeepFirst proteinTD (proteinPrep desc df))).map
        proteinTD := by
    rw [proteinAggregate, List.map_map]
    rfl
  refine ⟨?_, ?_, ?_, ?_⟩
  · intro r hr
    have := (List.mem_filter.mp hr).2
    simpa using this
  · intro pr hpr
    rcases List.mem_map.mp hpr with ⟨rep, hrep, rfl⟩
    refine ⟨rfl, ?_⟩
    have h1 : rep ∈ dedupKeepFirst proteinTD (proteinPrep desc df) := hperm.subset hrep
    have h2 : rep ∈ proteinPrep desc df := mem_of_mem_dedupKeepFirst h1
    exact List.mem_map.mpr ⟨rep, h2, rfl⟩
  · rw [hmapeq]
    exact ((hperm.map proteinTD).nodup_iff).mpr nodup_keys_dedupKeepFirst
  · intro k
    rw [hmapeq]
    rw [(hperm.map proteinTD).mem_iff]
    exact key_mem_dedupKeepFirst

/-- Two PSMs of the same single protein and target flag, on distinct
spectra, with scores `1.0` and `2.0`. -/
def exProtDf : List Row :=
  [⟨"s1", "AAA", "P", true, 1, ""⟩, ⟨"s2", "BBB", "P", true, 2, ""⟩]

/-- Witness for C3 on the spec's worked example: the two PSMs for the
`("P", target)` pair with scores `1.0` and `2.0` aggregate to `3.0`
before protein-level competition. -/
theorem protein_level_aggregation_witness :
    ((⟨"", "", "P", true, sumScores (proteinPrep true exProtDf) "P" true, ""⟩ : Row)
        ∈ proteinAggregate true exProtDf) ∧
      sumScores (proteinPrep true exProtDf) "P" true = (3 : ℚ) := by
  have hm : (⟨"", "", "P", true, sumScores (proteinPrep true exProtDf) "P" true, ""⟩ : Row)
      ∈ proteinAggregate true exProtDf := by
    rw [show proteinAggregate true exProtDf =
      [⟨"", "", "P", true, sumScores (proteinPrep true exProtDf) "P" true, ""⟩] from rfl]
    exact List.mem_cons_self _ _
  have hsc := ((protein_level_aggregation true exProtDf).2.1 _ hm).1
  refine ⟨hm, hsc.symm.trans ?_⟩
  rw [show proteinPrep true exProtDf = exProtDf from by decide]
  show ((1 : ℚ) + (2 + 0)) = 3
  norm_num

/-! ### The TDC orchestrator (`TdcConfidence._assign_confidence`)

`confidence.py` lines 362–439.  Python state that matters here: `df =
self.data` makes `df` an alias of the dataset's stored table, so the
in-place column write `df[pair_col] = ...` in the `peptide-only` branch
lands on the dataset's table; every other transformation
(`sample`/`sort_values`/`drop_duplicates`/`groupby`) returns a new frame.
The embedding threads the dataset's table through the level loop as the
`data` field of the state, and `raise ValueError` is `Except.error`. -/

/-- Embedding of Python's `pairing.get(x, x)`. -/
def pairingGet (pairing : List (String × String)) (x : String) : String :=
  match pairing.find? (fun p => p.1 == x) with
  | some p => p.2
  | none => x

/-- Embedding of `df[pair_col] = df[peptide_column].map(lambda x:
pairing.get(x, x))` (`confidence.py` line 388). -/
def addPairingCol (pairing : List (String × String)) (df : List Row) : List Row :=
  df.map (fun r => { r with pairing := pairingGet pairing r.peptide })

structure TdcState where
  data : List Row
  estimates : List (String × List (Row × ℚ))
  decoyEstimates : List (String × List (Row × ℚ))

/-- Shared tail of each level iteration (`confidence.py` lines 421–439):
compete on the level's group key, compute q-values, and append the target
and decoy partitions of the result to the accumulated estimates; `data`
records the dataset's stored table after the iteration. -/
def finishLevel (desc : Bool) (key : Row → String) (level : String)
    (df newData : List Row) (st : TdcState) : TdcState :=
  let dfc := compete desc Row.score key df
  let qs := tdc (dfc.map Row.score) (dfc.map Row.target) desc
  let withQ := dfc.zip qs
  { data := newData,
    estimates := st.estimates ++ [(level, withQ.filter (fun rq => rq.1.target))],
    decoyEstimates := st.decoyEstimates ++ [(level, withQ.filter (fun rq => !rq.1.target))] }

/-- One iteration of the level loop of `TdcConfidence._assign_confidence`
(`confidence.py` lines 371–439). -/
def tdcStep (desc : Bool) (pepType : String) (pairing : List (String × String))
    (st : TdcState) (level : String) : Except String TdcState :=
  let df := st.data
  if level == "peptides" then
    if pepType == "classic" then
      .ok (finishLevel desc Row.peptide level df st.data st)
    else if pepType == "peptide-only" || pepType == "psm-peptide" then
      if pepType == "psm-peptide" then
        let df2 := addPairingCol pairing (compete desc Row.score Row.spectrum df)
        .ok (finishLevel desc Row.pairing level df2 st.data st)
      else
        let newData := addPairingCol pairing st.data
        .ok (finishLevel desc Row.pairing level newData newData st)
    else
      .error ("'" ++ pepType ++ "' is not a valid value for pep_fdr_type ")
  else if level == "proteins" then
    .ok (finishLevel desc Row.protein level (proteinAggregate desc df) st.data st)
  else
    .ok (finishLevel desc Row.spectrum level df st.data st)

/-- The `for level in zip(self.levels, ...)` loop, aborted by the first
raised error. -/
def runLevels (f : TdcState → String → Except String TdcState) :
    TdcState → List String → Except String TdcState
  | st, [] => .ok st
  | st, l :: ls =>
    match f st l with
    | .ok st2 => runLevels f st2 ls
    | .error e => .error e

/-- The fixed level order `self._levels = ("psms", "peptides", "proteins")`
(`confidence.py` line 153), shared by both confidence strategies. -/
def confidenceLevels : List String := ["psms", "peptides", "proteins"]

/-- Embedding of `TdcConfidence._assign_confidence` (`confidence.py`
lines 362–439): check the pairing requirement, then process the levels
`psms`, `peptides`, `proteins` in order. -/
def tdcAssignConfidence (desc : Bool) (pepType : String)
    (pairing : Option (List (String × String))) (data0 : List Row) :
    Except String TdcState :=
  if pairing.isNone && !(pepType == "classic") then
    .error "Must provide paired target decoy peptide infomation"
  else
    runLevels (tdcStep desc pepType (pairing.getD [])) ⟨data0, [], []⟩ confidenceLevels

/-- C7. During peptide-level confidence estimation, a strategy name other
than `classic`, `peptide-only` or `psm-peptide` raises a validation
error; `peptide-only` and `psm-peptide` raise a validation error when the
pairing map is absent; and `classic` needs no pairing map (the run
completes without raising). -/
theorem tdc_pep_fdr_type_validation (desc : Bool)
    (pl : Option (List (String × String))) (data : List Row) (pepType : String) :
    (pepType ∉ (["classic", "peptide-only", "psm-peptide"] : List String) →
      exceptIsOk (tdcAssignConfidence desc pepType pl data) = false) ∧
    (pl = none → (pepType = "peptide-only" ∨ pepType = "psm-peptide") →
      exceptIsOk (tdcAssignConfidence desc pepType pl data) = false) ∧
    exceptIsOk (tdcAssignConfidence desc "classic" none data) = true := by
  refine ⟨?_, ?_, ?_⟩
  · intro h
    have hc : (pepType == "classic") = false := by
      simp only [beq_eq_false_iff_ne, ne_eq]
      intro he; exact h (by simp [he])
    have hpo : (pepType == "peptide-only") = false := by
      simp only [beq_eq_false_iff_ne, ne_eq]
      intro he; exact h (by simp [he])
    have hpp : (pepType == "psm-peptide") = false := by
      simp only [beq_eq_false_iff_ne, ne_eq]
      intro he; exact h (by simp [he])
    cases pl with
    | none => simp [tdcAssignConfidence, hc, exceptIsOk]
    | some p =>
      simp [tdcAssignConfidence, confidenceLevels, runLevels, tdcStep, hc, hpo, hpp, exceptIsOk]
  · rintro rfl (rfl | rfl) <;> rfl
  · rfl

/-- The smallest valid dataset: one target PSM and one decoy PSM. -/
def exTdcDf : List Row :=
  [⟨"s1", "PEP", "P", true, 1, ""⟩, ⟨"s2", "DEP", "Q", false, 2, ""⟩]

/-- Witness for C7. -/
theorem tdc_pep_fdr_type_validation_witness :
    exceptIsOk (tdcAssignConfidence true "bogus" (some [("PEP", "DEP")]) exTdcDf) = false ∧
    exceptIsOk (tdcAssignConfidence true "peptide-only" none exTdcDf) = false ∧
    exceptIsOk (tdcAssignConfidence true "classic" none exTdcDf) = true :=
  ⟨(tdc_pep_fdr_type_validation true (some [("PEP", "DEP")]) exTdcDf "bogus").1 (by decide),
   (tdc_pep_fdr_type_validation true none exTdcDf "peptide-only").2.1 rfl (Or.inl rfl),
   (tdc_pep_fdr_type_validation true none exTdcDf "classic").2.2⟩

def exPairing : List (String × String) := [("PEP", "DEP")]

/-- The dataset's stored table after a `peptide-only` run on `exTdcDf`:
the in-place write of the pairing column is visible in it. -/
def exTdcDfMut : List Row :=
  [⟨"s1", "PEP", "P", true, 1, "DEP"⟩, ⟨"s2", "DEP", "Q", false, 2, "DEP"⟩]

/-- C6 counterexample: under the `peptide-only` strategy the engine
mutates the dataset's stored table in place (`df[pair_col] = ...` with
`df = self.data`, `confidence.py` lines 372, 386–390): after the run the
dataset's underlying data differs from its value before the run. -/
theorem tdc_peptide_only_mutates_data :
    Except.map TdcState.data
        (tdcAssignConfidence true "peptide-only" (some exPairing) exTdcDf) =
      Except.ok exTdcDfMut ∧ exTdcDfMut ≠ exTdcDf := by
  exact ⟨rfl, by decide⟩

/-- C6 (amended). Under the `classic` and `psm-peptide` strategies every
transformation produces a new table and the dataset's underlying data is
unchanged after the run; only the `peptide-only` strategy writes the
pairing column into the dataset's stored table in place. -/
theorem tdc_classic_psm_peptide_preserve_data (desc : Bool) (pepType : String)
    (pl : Option (List (String × String))) (data : List Row) (st : TdcState)
    (hty : pepType = "classic" ∨ pepType = "psm-peptide")
    (h : tdcAssignConfidence desc pepType pl data = .ok st) :
    st.data = data := by
  rcases hty with rfl | rfl
  · cases pl with
    | none =>
      have hA : Except.map TdcState.data (tdcAssignConfidence desc "classic" none data) =
          Except.ok data := rfl
      have hB : Except.map TdcState.data (tdcAssignConfidence desc "classic" none data) =
          Except.ok st.data := by rw [h]; rfl
      exact (Except.ok.inj (hA.symm.trans hB)).symm
    | some p =>
      have hA : Except.map TdcState.data (tdcAssignConfidence desc "classic" (some p) data) =
          Except.ok data := rfl
      have hB : Except.map TdcState.data (tdcAssignConfidence desc "classic" (some p) data) =
          Except.ok st.data := by rw [h]; rfl
      exact (Except.ok.inj (hA.symm.trans hB)).symm
  · cases pl with
    | none =>
      rw [show tdcAssignConfidence desc "psm-peptide" none data =
        Except.error "Must provide paired target decoy peptide infomation" from rfl] at h
      exact Except.noConfusion h
    | some p =>
      have hA : Except.map TdcState.data
          (tdcAssignConfidence desc "psm-peptide" (some p) data) = Except.ok data := rfl
      have hB : Except.map TdcState.data
          (tdcAssignConfidence desc "psm-peptide" (some p) data) = Except.ok st.data := by
        rw [h]; rfl
      exact (Except.ok.inj (hA.symm.trans hB)).symm

/-- Witness for C6 (amended), on the concrete two-PSM dataset under the
`classic` strategy. -/
theorem tdc_classic_preserve_data_witness :
    Except.map TdcState.data (tdcAssignConfidence true "classic" none exTdcDf) =
      Except.ok exTdcDf := by
  cases hE : tdcAssignConfidence true "classic" none exTdcDf with
  | error e =>
    have hok : exceptIsOk (tdcAssignConfidence true "classic" none exTdcDf) = true := rfl
    rw [hE] at hok
    simp [exceptIsOk] at hok
  | ok st =>
    have hd := tdc_classic_psm_peptide_preserve_data true "classic" none exTdcDf st
      (Or.inl rfl) hE
    show Except.ok st.data = Except.ok exTdcDf
    rw [hd]

/-! ### The exact-join peptide pairing builder (`crux.py::_create_pairing`)

`parsers/crux.py` lines 139–208.  The input rows carry the `sequence`,
`target/decoy` and `original target sequence` columns; the builder
shuffles (covered by quantifying over the input order), deduplicates by
sequence keeping one representative, computes a composition key `mods`
(`sequence.str.split("(?=[A-Z])")`, sorted and re-joined), splits targets
from decoys, overwrites the targets' `original target sequence` with the
bracket-stripped sequence, ranks rows within each
`(original target sequence, mods)` group by sequence
(`rank("first")`; sequences are distinct after the dedup, so the rank is
one plus the number of smaller sequences in the group), and inner-joins
targets with decoys on `(original target sequence, mods, rank)`. -/

structure PairRow where
  sequence : String
  label : String
  orig : String
deriving DecidableEq, Repr

structure PRow where
  sequence : String
  orig : String
  mods : String
deriving DecidableEq, Repr

/-- Embedding of `sequence.str.split("(?=[A-Z])")`: cut the character list
before every uppercase letter (the first fragment may be empty, as with
Python's `re.split` on a zero-width match at the start). -/
def splitBeforeUpper (s : String) : List String :=
  let fin := s.toList.foldl
    (fun (acc : List String × String) c =>
      if c.isUpper then (acc.1 ++ [acc.2], String.singleton c) else (acc.1, acc.2.push c))
    ([], "")
  fin.1 ++ [fin.2]

instance : DecidableRel (fun a b : String => strLe a b = true) := fun a b =>
  inferInstanceAs (Decidable (strLe a b = true))

/-- Python's `sorted` on a list of strings (codepoint order). -/
def sortStrings (l : List String) : List String :=
  List.insertionSort (fun a b : String => strLe a b = true) l

/-- Embedding of `"".join(sorted(sequence.str.split("(?=[A-Z])")))`
(`crux.py` lines 178–182): the order-insensitive composition key. -/
def modsOf (s : String) : String := String.join (sortStrings (splitBeforeUpper s))

/-- Worker for `stripBrackets`, with fuel for termination: remove every
non-greedy `\[.*?\]` match, i.e. drop from each `[` through the nearest
`]`; an unmatched `[` is left in place. -/
def stripBracketsFuel : ℕ → List Char → List Char
  | 0, l => l
  | _ + 1, [] => []
  | fuel + 1, c :: rest =>
    if c = '[' then
      match rest.dropWhile (fun x => !(x = ']')) with
      | [] => c :: rest
      | _ :: tail => stripBracketsFuel fuel tail
    else c :: stripBracketsFuel fuel rest

/-- Embedding of `str.replace(r"\[.*?\]", "", regex=True)` (`crux.py`
line 191): strip the bracketed modification annotations. -/
def stripBrackets (s : String) : String :=
  ⟨stripBracketsFuel (s.toList.length + 1) s.toList⟩

/-- The join key of the exact-join strategy, per row: the (possibly
overwritten) `original target sequence` column and the `mods` column. -/
def pairKey (r : PRow) : String × String := (r.orig, r.mods)

/-- Embedding of `groupby([seq, "mods"])["sequence"].rank("first")`
(`crux.py` lines 194–195): one plus the number of rows of the same group
whose sequence sorts strictly earlier.  (Sequences are pairwise distinct
within targets and within decoys after the dedup, so ties never arise.) -/
def ordOf (l : List PRow) (r : PRow) : ℕ :=
  1 + (l.filter (fun x =>
    decide (pairKey x = pairKey r ∧ strLt x.sequence r.sequence = true))).length

/-- The target side of the join (`crux.py` lines 185–194): rows not
labeled `"decoy"`, with `original target sequence` overwritten by the
bracket-stripped sequence. -/
def makeTargets (dd : List PairRow) : List PRow :=
  (dd.filter (fun r => !(r.label == "decoy"))).map
    (fun r => ⟨r.sequence, stripBrackets r.sequence, modsOf r.sequence⟩)

/-- The decoy side of the join (`crux.py` lines 185–195): rows labeled
`"decoy"`, keeping their recorded `original target sequence`. -/
def makeDecoys (dd : List PairRow) : List PRow :=
  (dd.filter (fun r => r.label == "decoy")).map
    (fun r => ⟨r.sequence, r.orig, modsOf r.sequence⟩)

/-- Embedding of `_create_pairing` (`crux.py` lines 139–208): dedup by
sequence, split targets/decoys, inner-join on
`(original target sequence, mods, rank)` and return the
`sequence_t → sequence_d` pairs. -/
def createPairing (rows : List PairRow) : List (String × String) :=
  let dd := dedupKeepFirst (fun r => r.sequence) rows
  let targets := makeTargets dd
  let decoys := makeDecoys dd
  targets.flatMap (fun t =>
    (decoys.filter (fun d =>
      decide (pairKey d = pairKey t ∧ ordOf decoys d = ordOf targets t))).map
      (fun d => (t.sequence, d.sequence)))

theorem filter_length_le {α : Type} {p q : α → Bool} (himp : ∀ x, p x = true → q x = true) :
    ∀ l : List α, (l.filter p).length ≤ (l.filter q).length := by
  intro l
  induction l with
  | nil => simp
  | cons c t ih =>
    by_cases hp : p c = true
    · rw [List.filter_cons_of_pos hp, List.filter_cons_of_pos (himp c hp)]
      simpa using ih
    · rw [List.filter_cons_of_neg (by simpa using hp)]
      by_cases hq : q c = true
      · rw [List.filter_cons_of_pos hq]
        exact le_trans ih (Nat.le_succ _)
      · rw [List.filter_cons_of_neg (by simpa using hq)]
        exact ih

theorem filter_length_lt {α : Type} {p q : α → Bool} {l : List α} {a : α}
    (himp : ∀ x, p x = true → q x = true) (ha : a ∈ l) (hqa : q a = true)
    (hpa : p a = false) : (l.filter p).length < (l.filter q).length := by
  induction l with
  | nil => simp at ha
  | cons c t ih =>
    rcases List.mem_cons.mp ha with rfl | ha
    · rw [List.filter_cons_of_neg (by simp [hpa]), List.filter_cons_of_pos hqa]
      exact Nat.lt_succ_of_le (filter_length_le himp t)
    · by_cases hp : p c = true
      · rw [List.filter_cons_of_pos hp, List.filter_cons_of_pos (himp c hp)]
        simpa using ih ha
      · rw [List.filter_cons_of_neg (by simpa using hp)]
        by_cases hq : q c = true
        · rw [List.filter_cons_of_pos hq]
          exact Nat.lt_succ_of_le (le_of_lt (ih ha))
        · rw [List.filter_cons_of_neg (by simpa using hq)]
          exact ih ha

/-- Within one list whose sequences are pairwise distinct, the
`(group key, rank)` pair determines the row: `rank("first")` assigns
distinct ranks inside a group. -/
theorem ordOf_inj {l : List PRow} (hseq : (l.map PRow.sequence).Nodup) {a b : PRow}
    (ha : a ∈ l) (hb : b ∈ l) (hk : pairKey a = pairKey b)
    (ho : ordOf l a = ordOf l b) : a = b := by
  by_contra hne
  have hsne : a.sequence ≠ b.sequence := by
    intro he
    exact hne (List.inj_on_of_nodup_map hseq ha hb he)
  have hmain : ∀ x y : PRow, x ∈ l → y ∈ l → pairKey x = pairKey y →
      strLt x.sequence y.sequence = true → ordOf l x < ordOf l y := by
    intro x y hx hy hkxy hlt
    have himp : ∀ z, (decide (pairKey z = pairKey x ∧ strLt z.sequence x.sequence = true)) = true →
        (decide (pairKey z = pairKey y ∧ strLt z.sequence y.sequence = true)) = true := by
      intro z hz
      rw [decide_eq_true_eq] at hz
      rw [decide_eq_true_eq]
      exact ⟨hz.1.trans hkxy, strLt_trans hz.2 hlt⟩
    have hq : (decide (pairKey x = pairKey y ∧ strLt x.sequence y.sequence = true)) = true := by
      rw [decide_eq_true_eq]; exact ⟨hkxy, hlt⟩
    have hp : (decide (pairKey x = pairKey x ∧ strLt x.sequence x.sequence = true)) = false := by
      rw [decide_eq_false_iff_not]
      rintro ⟨-, hlt'⟩
      rw [strLt_irrefl] at hlt'
      cases hlt'
    have := filter_length_lt himp hx hq hp
    simpa [ordOf] using this
  by_cases h1 : strLt a.sequence b.sequence = true
  · exact absurd ho (Nat.ne_of_lt (hmain a b ha hb hk h1))
  · by_cases h2 : strLt b.sequence a.sequence = true
    · exact absurd ho.symm (Nat.ne_of_lt (hmain b a hb ha hk.symm h2))
    · exact hsne (eq_of_strLt_false (Bool.eq_false_iff.mpr h1) (Bool.eq_false_iff.mpr h2))

theorem makeTargets_seq_nodup (rows : List PairRow) :
    ((makeTargets (dedupKeepFirst (fun r => r.sequence) rows)).map PRow.sequence).Nodup := by
  have h0 : ((dedupKeepFirst (fun r => r.sequence) rows).map (fun r => r.sequence)).Nodup :=
    nodup_keys_dedupKeepFirst
  have hsub : List.Sublist
      (((dedupKeepFirst (fun r => r.sequence) rows).filter
        (fun r => !(r.label == "decoy"))).map (fun r => r.sequence))
      ((dedupKeepFirst (fun r => r.sequence) rows).map (fun r => r.sequence)) :=
    (List.filter_sublist _).map _
  have h1 := h0.sublist hsub
  rw [makeTargets, List.map_map]
  exact h1

theorem makeDecoys_seq_nodup (rows : List PairRow) :
    ((makeDecoys (dedupKeepFirst (fun r => r.sequence) rows)).map PRow.sequence).Nodup := by
  have h0 : ((dedupKeepFirst (fun r => r.sequence) rows).map (fun r => r.sequence)).Nodup :=
    nodup_keys_dedupKeepFirst
  have hsub : List.Sublist
      (((dedupKeepFirst (fun r => r.sequence) rows).filter
        (fun r => r.label == "decoy")).map (fun r => r.sequence))
      ((dedupKeepFirst (fun r => r.sequence) rows).map (fun r => r.sequence)) :=
    (List.filter_sublist _).map _
  have h1 := h0.sublist hsub
  rw [makeDecoys, List.map_map]
  exact h1

/-- C4. For every input collection whose labels are `"target"` or
`"decoy"`, the exact-join pairing builder returns a map in which every
key is the sequence of a target-labeled input row, every value is the
sequence of a decoy-labeled input row (so unmatched targets are dropped
rather than self-paired), and no decoy value appears more than once
across the map. -/
theorem create_pairing_spec (rows : List PairRow)
    (hlab : ∀ r ∈ rows, r.label = "target" ∨ r.label = "decoy") :
    (∀ p ∈ createPairing rows,
      (∃ r ∈ rows, r.label = "target" ∧ r.sequence = p.1) ∧
      (∃ r ∈ rows, r.label = "decoy" ∧ r.sequence = p.2)) ∧
    ((createPairing rows).map Prod.snd).Nodup := by
  constructor
  · intro p hp
    rw [createPairing, List.mem_flatMap] at hp
    rcases hp with ⟨t, ht, hpt⟩
    rcases List.mem_map.mp hpt with ⟨d, hd, rfl⟩
    have hdf := List.mem_filter.mp hd
    constructor
    · rcases List.mem_map.mp ht with ⟨r0, hr0, rfl⟩
      have hr0f := List.mem_filter.mp hr0
      have hr0m : r0 ∈ rows := mem_of_mem_dedupKeepFirst hr0f.1
      refine ⟨r0, hr0m, ?_, rfl⟩
      have : ¬ (r0.label = "decoy") := by
        have := hr0f.2
        simpa using this
      rcases hlab r0 hr0m with h | h
      · exact h
      · exact absurd h this
    · rcases List.mem_map.mp hdf.1 with ⟨r0, hr0, rfl⟩
      have hr0f := List.mem_filter.mp hr0
      have hr0m : r0 ∈ rows := mem_of_mem_dedupKeepFirst hr0f.1
      refine ⟨r0, hr0m, ?_, rfl⟩
      have := hr0f.2
      simpa using this
  · rw [createPairing, List.map_flatMap]
    rw [List.nodup_flatMap]
    constructor
    · intro t ht
      have hD := makeDecoys_seq_nodup rows
      have hsub : List.Sublist
          (((makeDecoys (dedupKeepFirst (fun r => r.sequence) rows)).filter
            (fun d => decide (pairKey d = pairKey t ∧
              ordOf (makeDecoys (dedupKeepFirst (fun r => r.sequence) rows)) d =
              ordOf (makeTargets (dedupKeepFirst (fun r => r.sequence) rows)) t))).map
              PRow.sequence)
          ((makeDecoys (dedupKeepFirst (fun r => r.sequence) rows)).map PRow.sequence) :=
        (List.filter_sublist _).map _
      have := hD.sublist hsub
      rw [List.map_map]
      exact this
    · have hT := makeTargets_seq_nodup rows
      have hD := makeDecoys_seq_nodup rows
      have hTp : (makeTargets (dedupKeepFirst (fun r => r.sequence) rows)).Pairwise
          (fun t1 t2 => t1.sequence ≠ t2.sequence) := List.pairwise_map.mp hT
      refine List.Pairwise.imp_of_mem ?_ hTp
      intro t1 t2 ht1 ht2 hne
      intro x hx1 hx2
      simp only [List.map_map, List.mem_map, Function.comp] at hx1 hx2
      rcases hx1 with ⟨d1, hd1, hx1⟩
      rcases hx2 with ⟨d2, hd2, hx2⟩
      have hd1f := List.mem_filter.mp hd1
      have hd2f := List.mem_filter.mp hd2
      have hm1 := decide_eq_true_eq.mp hd1f.2
      have hm2 := decide_eq_true_eq.mp hd2f.2
      have hdeq : d1 = d2 := by
        refine List.inj_on_of_nodup_map hD hd1f.1 hd2f.1 ?_
        have hx1' : d1.sequence = x := hx1
        have hx2' : d2.sequence = x := hx2
        exact hx1'.trans hx2'.symm
      subst hdeq
      have hkey : pairKey t1 = pairKey t2 := hm1.1.symm.trans hm2.1
      have hord : ordOf (makeTargets (dedupKeepFirst (fun r => r.sequence) rows)) t1 =
          ordOf (makeTargets (dedupKeepFirst (fun r => r.sequence) rows)) t2 :=
        hm1.2.symm.trans hm2.2
      exact hne (congrArg PRow.sequence (ordOf_inj hT ht1 ht2 hkey hord))

/-- Input rows from the crema unit tests: the target `ALLSLR` whose
shuffled decoy is `ALLLSR`. -/
def exPairRows : List PairRow :=
  [⟨"ALLSLR", "target", "ALLSLR"⟩, ⟨"ALLLSR", "decoy", "ALLSLR"⟩]

/-- Witness for C4: the builder pairs the target `ALLSLR` with the decoy
`ALLLSR`, the values are pairwise distinct, and the key is a
target-labeled input sequence. -/
theorem create_pairing_spec_witness :
    (("ALLSLR", "ALLLSR") ∈ createPairing exPairRows) ∧
    ((createPairing exPairRows).map Prod.snd).Nodup ∧
    (∃ r ∈ exPairRows, r.label = "target" ∧ r.sequence = "ALLSLR") := by
  have h := create_pairing_spec exPairRows (by decide)
  have hmem : ("ALLSLR", "ALLLSR") ∈ createPairing exPairRows := by decide
  exact ⟨hmem, h.2, (h.1 ("ALLSLR", "ALLLSR") hmem).1⟩

/-! ### The outbound entry point (`assign_confidence`)

`confidence.py` lines 18–71 versus `dataset.py` lines 132–151:
`crema.confidence.assign_confidence` always forwards the keyword
arguments below to `PsmDataset.assign_confidence`, whose parameter list
is fixed; a Python call binds only when every keyword argument names a
declared parameter, otherwise it raises `TypeError`. -/

/-- The parameters accepted by `PsmDataset.assign_confidence`
(`dataset.py` lines 132–138). -/
def psmDatasetAssignConfidenceParams : List String :=
  ["score_column", "desc", "eval_fdr", "method"]

/-- The keyword arguments `crema.confidence.assign_confidence` passes in
`dset.assign_confidence(...)` (`confidence.py` lines 59–65). -/
def assignConfidenceForwardedKwargs : List String :=
  ["score_column", "desc", "eval_fdr", "method", "pep_fdr_type"]

/-- A Python keyword call binds without a `TypeError` exactly when every
keyword argument names a declared parameter (none of the parameters here
is positional-only or variadic). -/
def pythonCallBinds (params kwargs : List String) : Bool :=
  kwargs.all (fun k => params.contains k)

/-- C5 (the code is at fault): the call that `assign_confidence` makes
into `PsmDataset.assign_confidence` never binds — the forwarded
`pep_fdr_type` keyword is not among the declared parameters — so the
entry point raises `TypeError` instead of returning a result object. -/
theorem assign_confidence_kwargs_mismatch :
    pythonCallBinds psmDatasetAssignConfidenceParams assignConfidenceForwardedKwargs =
      false := by
  decide

/-! ### Dataset construction (`PsmDataset.__init__`)

`dataset.py` lines 53–91: select the declared columns, normalize the
target column with `astype(bool)` (truthiness), then fail when the table
is empty, has no decoys, or has no targets.  The pre-normalization target
column is embedded as an `Int` (`astype(bool)` maps nonzero to `True`). -/

structure RawPsm where
  spectrum : String
  peptide : String
  score : ℚ
  target : Int
deriving DecidableEq, Repr

structure PsmEntry where
  spectrum : String
  peptide : String
  score : ℚ
  target : Bool
deriving DecidableEq, Repr

/-- Embedding of `astype(bool)` on the target column (`dataset.py`
line 80): truthiness of the stored value. -/
def normalizePsm (r : RawPsm) : PsmEntry :=
  ⟨r.spectrum, r.peptide, r.score, r.target != 0⟩

/-- Embedding of `PsmDataset.__init__` (`dataset.py` lines 53–91): copy
and normalize the data, then check, in order, that the table is
non-empty, has at least one decoy, and has at least one target. -/
def psmDatasetInit (rows : List RawPsm) : Except String (List PsmEntry) :=
  let data := rows.map normalizePsm
  if data.isEmpty then .error "No PSMs were detected."
  else if data.countP (fun r => !r.target) = 0 then .error "No decoy PSMs were detected."
  else if data.countP (fun r => r.target) = 0 then .error "No target PSMs were detected."
  else .ok data

/-- C8. Construction of a PSM dataset raises a validation error if and
only if the collection is degenerate — no entries, no target entries, or
no decoy entries — and otherwise succeeds with the target flag normalized
to a boolean. -/
theorem psm_dataset_validation (rows : List RawPsm) :
    ((∃ e, psmDatasetInit rows = .error e) ↔
      (rows = [] ∨ (∀ r ∈ rows, r.target ≠ 0) ∨ (∀ r ∈ rows, r.target = 0))) ∧
    (psmDatasetInit rows = .ok (rows.map normalizePsm) ∨
      ∃ e, psmDatasetInit rows = .error e) := by
  have hempty : (rows.map normalizePsm).isEmpty = true ↔ rows = [] := by
    rw [List.isEmpty_iff]
    constructor
    · intro h
      cases rows with
      | nil => rfl
      | cons a t => simp at h
    · intro h; rw [h]; rfl
  have hdec : ((rows.map normalizePsm).countP (fun r => !r.target) = 0) ↔
      (∀ r ∈ rows, r.target ≠ 0) := by
    rw [List.countP_eq_zero]
    constructor
    · intro h r hr
      have := h (normalizePsm r) (List.mem_map_of_mem _ hr)
      simpa [normalizePsm] using this
    · intro h e he
      rcases List.mem_map.mp he with ⟨r, hr, rfl⟩
      simp [normalizePsm, h r hr]
  have htar : ((rows.map normalizePsm).countP (fun r => r.target) = 0) ↔
      (∀ r ∈ rows, r.target = 0) := by
    rw [List.countP_eq_zero]
    constructor
    · intro h r hr
      have := h (normalizePsm r) (List.mem_map_of_mem _ hr)
      simpa [normalizePsm] using this
    · intro h e he
      rcases List.mem_map.mp he with ⟨r, hr, rfl⟩
      simp [normalizePsm, h r hr]
  simp only [psmDatasetInit]
  split_ifs with h1 h2 h3
  · exact ⟨⟨fun _ => Or.inl (hempty.mp h1), fun _ => ⟨_, rfl⟩⟩, Or.inr ⟨_, rfl⟩⟩
  · exact ⟨⟨fun _ => Or.inr (Or.inl (hdec.mp h2)), fun _ => ⟨_, rfl⟩⟩, Or.inr ⟨_, rfl⟩⟩
  · exact ⟨⟨fun _ => Or.inr (Or.inr (htar.mp h3)), fun _ => ⟨_, rfl⟩⟩, Or.inr ⟨_, rfl⟩⟩
  · refine ⟨⟨?_, ?_⟩, Or.inl rfl⟩
    · rintro ⟨e, he⟩
      exact he.elim
    · rintro (h | h | h)
      · exact absurd (hempty.mpr h) h1
      · exact absurd (hdec.mpr h) h2
      · exact absurd (htar.mpr h) h3

/-- One target and one decoy PSM: the smallest non-degenerate input. -/
def exRawPsms : List RawPsm := [⟨"s1", "PEP", 1, 1⟩, ⟨"s2", "DEP", 2, 0⟩]

/-- Witness for C8: construction succeeds on a collection with one target
and one decoy, and fails on the empty collection. -/
theorem psm_dataset_validation_witness :
    psmDatasetInit exRawPsms = .ok (exRawPsms.map normalizePsm) ∧
    (∃ e, psmDatasetInit ([] : List RawPsm) = .error e) := by
  constructor
  · rcases (psm_dataset_validation exRawPsms).2 with h | h
    · exact h
    · exfalso
      rcases (psm_dataset_validation exRawPsms).1.mp h with h' | h' | h'
      · exact absurd h' (by decide)
      · exact absurd h' (by decide)
      · exact absurd h' (by decide)
  · exact (psm_dataset_validation ([] : List RawPsm)).1.mpr (Or.inl rfl)

/-! ### The mix-max level loop (`MixmaxConfidence._assign_confidence`)

`confidence.py` lines 510–595: the loop iterates the fixed level order
and executes `continue` exactly when `level == "peptides"`; every other
iteration unconditionally stores `confidence_estimates[level]`.  Which
levels receive an estimate depends only on this control flow (the numeric
estimate itself calls `qvalues.mixmax`, which is not among the provided
sources). -/

/-- The levels that receive a mix-max confidence estimate, out of the
levels iterated. -/
def mixmaxAssignedLevels (levels : List String) : List String :=
  levels.filter (fun l => !(l == "peptides"))

/-- C9 counterexample: the protein level is not skipped by the mix-max
loop — it receives an estimate — so mix-max estimates are not computed
only at the PSM level. -/
theorem mixmax_processes_proteins :
    "proteins" ∈ mixmaxAssignedLevels confidenceLevels ∧
      mixmaxAssignedLevels confidenceLevels ≠ ["psms"] := by
  decide

/-- C9 (amended). Under the mix-max method only the peptide level is
skipped: estimates are computed for the psm and protein levels, in the
fixed order, and a level receives an estimate exactly when it is iterated
and is not the peptide level. -/
theorem mixmax_skips_only_peptides :
    mixmaxAssignedLevels confidenceLevels = ["psms", "proteins"] ∧
    (∀ l, l ∈ mixmaxAssignedLevels confidenceLevels ↔
      (l ∈ confidenceLevels ∧ l ≠ "peptides")) := by
  refine ⟨rfl, ?_⟩
  intro l
  rw [mixmaxAssignedLevels, List.mem_filter]
  constructor
  · rintro ⟨h1, h2⟩
    refine ⟨h1, ?_⟩
    intro he
    rw [he] at h2
    exact absurd h2 (by decide)
  · rintro ⟨h1, h2⟩
    refine ⟨h1, ?_⟩
    have hb : (l == "peptides") = false := beq_eq_false_iff_ne.mpr h2
    rw [hb]
    rfl

/-- Witness for C9 (amended): the psm level is processed and the peptide
level is skipped. -/
theorem mixmax_skips_only_peptides_witness :
    "psms" ∈ mixmaxAssignedLevels confidenceLevels ∧
      "peptides" ∉ mixmaxAssignedLevels confidenceLevels := by
  have h := mixmax_skips_only_peptides
  constructor
  · exact (h.2 "psms").mpr ⟨by decide, by decide⟩
  · intro hmem
    exact ((h.2 "peptides").mp hmem).2 rfl

/-! ### The columns stored by `PsmDataset.__init__`

`dataset.py` lines 64–80: `fields = spectrum_columns + score_columns +
[target_column] + [peptide_column]`, and the stored table is
`psms.copy().loc[:, fields]` — exactly those columns, in that order; any
other input column (including a protein-id column) is not retained. -/

/-- Embedding of `frame.loc[:, fields]`: select the named columns, in the
order of `fields`; `none` when a requested column is missing
(`KeyError`). -/
def selectColumns {V : Type} (fields : List String) (f : List (String × V)) :
    Option (List (String × V)) :=
  if fields.all (fun c => (List.lookup c f).isSome) then
    some (fields.filterMap (fun c => (List.lookup c f).map (fun v => (c, v))))
  else none

/-- The column list built at `dataset.py` lines 70–78. -/
def psmDatasetFields (spectrum scoreCols : List String) (target peptide : String) :
    List String :=
  spectrum ++ scoreCols ++ [target] ++ [peptide]

/-- Embedding of `self._data = psms.copy(deep=copy_data).loc[:, fields]`
(`dataset.py` line 79). -/
def psmDatasetStoredData {V : Type} (spectrum scoreCols : List String)
    (target peptide : String) (frame : List (String × V)) :
    Option (List (String × V)) :=
  selectColumns (psmDatasetFields spectrum scoreCols target peptide) frame

theorem filterMap_lookup_fst {V : Type} (f : List (String × V)) :
    ∀ fields : List String, (∀ c ∈ fields, (List.lookup c f).isSome = true) →
      (fields.filterMap (fun c => (List.lookup c f).map (fun v => (c, v)))).map Prod.fst =
        fields := by
  intro fields
  induction fields with
  | nil => intro _; rfl
  | cons c cs ih =>
    intro hall
    rcases Option.isSome_iff_exists.mp (hall c (List.mem_cons_self _ _)) with ⟨v, hv⟩
    have hstep : (c :: cs).filterMap (fun x => (List.lookup x f).map (fun v => (x, v))) =
        (c, v) :: cs.filterMap (fun x => (List.lookup x f).map (fun v => (x, v))) := by
      rw [List.filterMap_cons, hv]
      rfl
    rw [hstep, List.map_cons, ih (fun x hx => hall x (List.mem_cons_of_mem _ hx))]

theorem selectColumns_map_fst {V : Type} {fields : List String}
    {f : List (String × V)} {out : List (String × V)}
    (h : selectColumns fields f = some out) : out.map Prod.fst = fields := by
  unfold selectColumns at h
  split at h
  · rename_i hall
    injection h with h
    subst h
    rw [List.all_eq_true] at hall
    exact filterMap_lookup_fst f fields hall
  · exact Option.noConfusion h

/-- C10. After construction, the stored table has exactly the declared
spectrum-identity columns, score columns, target column and peptide
column, in that order; any other column of the caller's input frame —
a protein-id column included — is not retained. -/
theorem psm_dataset_stored_columns {V : Type} (spectrum scoreCols : List String)
    (target peptide : String) (frame : List (String × V)) (out : List (String × V))
    (h : psmDatasetStoredData spectrum scoreCols target peptide frame = some out) :
    out.map Prod.fst = spectrum ++ scoreCols ++ [target] ++ [peptide] ∧
    (∀ c, c ∈ frame.map Prod.fst →
      c ∉ psmDatasetFields spectrum scoreCols target peptide →
      c ∉ out.map Prod.fst) := by
  have h1 : out.map Prod.fst = psmDatasetFields spectrum scoreCols target peptide :=
    selectColumns_map_fst h
  refine ⟨h1, ?_⟩
  intro c _ hnot hmem
  rw [h1] at hmem
  exact hnot hmem

/-- A caller's frame with spectrum, score, target, peptide and protein
columns (column values are irrelevant to the column contract). -/
def exFrame : List (String × List ℚ) :=
  [("file", [1]), ("scan", [2]), ("combined p-value", [3]), ("target/decoy", [4]),
   ("sequence", [5]), ("protein id", [6])]

/-- The stored table for `exFrame`: the protein-id column is gone. -/
def exStoredFrame : List (String × List ℚ) :=
  [("file", [1]), ("scan", [2]), ("combined p-value", [3]), ("target/decoy", [4]),
   ("sequence", [5])]

/-- Witness for C10. -/
theorem psm_dataset_stored_columns_witness :
    psmDatasetStoredData ["file", "scan"] ["combined p-value"] "target/decoy" "sequence"
        exFrame = some exStoredFrame ∧
    exStoredFrame.map Prod.fst = ["file", "scan", "combined p-value", "target/decoy",
      "sequence"] ∧
    "protein id" ∉ exStoredFrame.map Prod.fst := by
  have h : psmDatasetStoredData ["file", "scan"] ["combined p-value"] "target/decoy"
      "sequence" exFrame = some exStoredFrame := by decide
  have hspec := psm_dataset_stored_columns ["file", "scan"] ["combined p-value"]
    "target/decoy" "sequence" exFrame exStoredFrame h
  exact ⟨h, hspec.1, hspec.2 "protein id" (by decide) (by decide)⟩

end Crema
